import Mathlib

/-!
# Verification of the `simple-db` document store

Shallow embedding of `src/simple_db.py` (class `SimpleDB`), the comparator
library `src/db_queries.py`, and where relevant the older `src/db.py`.

Python dictionaries are modelled as association lists with Python-dict
semantics: lookup finds the first (unique) matching key, assignment replaces
the value of an existing key in place (keeping its position) or appends a new
entry at the end, deletion removes the entry.  Python sets of identifier
strings are modelled as duplicate-free lists with order-irrelevant membership.

Python values are modelled by `Val`: integers and strings are hashable;
`Val.vlist` stands for a mutable container (list/dict/...), distinguished by
an opaque tag, which is the unhashable case `isinstance(v, collections.Hashable)
= False`.  Property names are Python strings (always hashable).

Raised exceptions are modelled with `Except PyErr`; since a Python method that
raises part-way still leaves its (partial) mutations in place, every mutating
operation returns the pair of its outcome and the state at the moment of
return/raise.
-/

set_option maxRecDepth 4000

inductive Val where
  | vint : Int → Val
  | vstr : String → Val
  | vlist : Nat → Val
deriving DecidableEq, Repr

/-- `isinstance(v, collections.Hashable)`: mutable containers are unhashable. -/
def Val.hashable : Val → Bool
  | .vlist _ => false
  | _ => true

/-- `isinstance(prop, collections.Hashable)` for a property name: Python
strings are always hashable. -/
def propHashable (_ : String) : Bool := true

inductive PyErr where
  | typeError
  | lookupError
  | keyError
  | attributeError
  | ioError
deriving DecidableEq, Repr

/-- First-match lookup in an association list (`d[k]` / `d.get(k)`). -/
def alookup {κ α : Type} [DecidableEq κ] : List (κ × α) → κ → Option α
  | [], _ => none
  | kv :: rest, k => if k = kv.1 then some kv.2 else alookup rest k

/-- Python dict assignment `d[k] = v`: replace in place, else append. -/
def aset {κ α : Type} [DecidableEq κ] : List (κ × α) → κ → α → List (κ × α)
  | [], k, v => [(k, v)]
  | kv :: rest, k, v =>
    if k = kv.1 then (kv.1, v) :: rest else kv :: aset rest k v

/-- Python dict deletion `del d[k]`. -/
def aerase {κ α : Type} [DecidableEq κ] (l : List (κ × α)) (k : κ) :
    List (κ × α) :=
  l.filter (fun kv => decide (kv.1 ≠ k))

/-- The keys of an association list, in insertion order. -/
def akeys {κ α : Type} (l : List (κ × α)) : List κ := l.map Prod.fst

/-- Python set insertion `s.add(x)` on a duplicate-free list. -/
def sadd (s : List String) (x : String) : List String :=
  if x ∈ s then s else s ++ [x]

/-- `matches.update(other)` for a set of id strings. -/
def supdate (s t : List String) : List String := t.foldl sadd s

/-- A document: a Python dict from property name to value. -/
abbrev Doc := List (String × Val)

/-- `prop_db[prop]` : value → set of identifiers. -/
abbrev ValMap := List (Val × List String)

/--
The state of a `SimpleDB` instance (`src/simple_db.py`):
`el_db` maps ID to document, `prop_db` maps property to value to ID set,
`fname` is the remembered save file.
-/
structure SimpleDB where
  el_db : List (String × Doc)
  prop_db : List (String × ValMap)
  fname : Option String := none
deriving DecidableEq, Repr

/-- `SimpleDB.__init__`. -/
def dbEmpty : SimpleDB := { el_db := [], prop_db := [], fname := none }

/-- `SimpleDB.size`: `len(self.el_db.keys())`. -/
def SimpleDB.size (db : SimpleDB) : Nat := db.el_db.length

/--
`SimpleDB.access`: for each id, `el = self.el_db.get(id_).copy()` — when the
id is absent, `get` returns `None` and `None.copy()` raises `AttributeError`;
otherwise the (copied) document is appended when it is truthy (non-empty).
-/
def SimpleDB.access (db : SimpleDB) : List String → Except PyErr (List Doc)
  | [] => .ok []
  | i :: rest =>
    match alookup db.el_db i with
    | none => .error .attributeError
    | some el =>
      match SimpleDB.access db rest with
      | .error e => .error e
      | .ok res => .ok (if el.isEmpty then res else el :: res)

/--
`SimpleDB.set_prop(id_, prop, val, exclude)`: `LookupError` when the id is
absent, `TypeError` when `prop`/`val` is unhashable; otherwise
`self.el_db[id_][prop] = val` and, unless excluded, insertion of `id_` into
`self.prop_db[prop][val]` (creating the nested dict/set as needed).
-/
def SimpleDB.set_prop (db : SimpleDB) (id prop : String) (val : Val)
    (exclude : Bool) : Except PyErr Unit × SimpleDB :=
  match alookup db.el_db id with
  | none => (.error .lookupError, db)
  | some el =>
    if propHashable prop && val.hashable then
      let db2 : SimpleDB := { db with el_db := aset db.el_db id (aset el prop val) }
      if exclude then (.ok (), db2)
      else
        let vmap := (alookup db2.prop_db prop).getD []
        let idset := (alookup vmap val).getD []
        let vmap2 := aset vmap val (sadd idset id)
        (.ok (), { db2 with prop_db := aset db2.prop_db prop vmap2 })
    else (.error .typeError, db)

/--
The validation loop of `SimpleDB.add`: `valid` is reassigned on every
iteration of `for prop, val in el.items()`, so only the hashability of the
*last* item survives the loop (`True` for an empty document).
-/
def addLoopValid (el : Doc) : Bool :=
  el.foldl (fun _ pv => propHashable pv.1 && pv.2.hashable) true

/--
The indexing loop of `SimpleDB.add`:
`for prop, val in el.items(): self.set_prop(id_, prop, val, exclude=(prop in exclude))`.
A raise inside `set_prop` propagates, leaving the mutations made so far.
-/
def SimpleDB.indexProps (db : SimpleDB) (id : String) (exclude : List String) :
    List (String × Val) → Except PyErr Unit × SimpleDB
  | [] => (.ok (), db)
  | pv :: rest =>
    match db.set_prop id pv.1 pv.2 (decide (pv.1 ∈ exclude)) with
    | (.error e, db2) => (.error e, db2)
    | (.ok _, db2) => db2.indexProps id exclude rest

/--
`SimpleDB.add(el, exclude, id_)`: runs the (buggy) validation loop, stores the
document under `id_` (a fresh UUID when the caller supplies none — the
identifier generator is external, so the chosen id is a parameter here), then
indexes every property through `set_prop`.
-/
def SimpleDB.add (db : SimpleDB) (el : Doc) (exclude : List String)
    (id : String) : Except PyErr String × SimpleDB :=
  if addLoopValid el then
    let db2 : SimpleDB := { db with el_db := aset db.el_db id el }
    match db2.indexProps id exclude el with
    | (.error e, db3) => (.error e, db3)
    | (.ok _, db3) => (.ok id, db3)
  else (.error .typeError, db)

/--
`SimpleDB.query(prop, test, val)` (identifier-set result, `access=False`):
scans the distinct values indexed under `prop` and unions the id sets of the
values passing `test`; an unindexed `prop` yields the empty set.
-/
def SimpleDB.query (db : SimpleDB) (prop : String) (test : Val → Val → Bool)
    (val : Val) : List String :=
  match alookup db.prop_db prop with
  | none => []
  | some vmap => vmap.foldl (fun acc vs => if test vs.1 val then supdate acc vs.2 else acc) []

/--
`SimpleDB.query_prop(prop)` (`access=False`):
`matches.update(self.prop_db[prop].values())` — the elements of `.values()`
are `set` objects, which are unhashable, so `set.update` raises `TypeError`
as soon as there is at least one value under `prop`; only an absent `prop`
(or an empty inner dict) produces the empty result.
-/
def SimpleDB.query_prop (db : SimpleDB) (prop : String) :
    Except PyErr (List String) :=
  match alookup db.prop_db prop with
  | none => .ok []
  | some vmap => if vmap.isEmpty then .ok [] else .error .typeError

/--
`SimpleDB.remove(id_)`: `LookupError` when the id is absent; otherwise
`for prop in self.el_db[id_].items(): self.del_prop(id_, prop)` — but the
class has no attribute `del_prop`, so the first iteration raises
`AttributeError`; only a document with no properties reaches
`del self.el_db[id_]`.
-/
def SimpleDB.remove (db : SimpleDB) (id : String) :
    Except PyErr Unit × SimpleDB :=
  match alookup db.el_db id with
  | none => (.error .lookupError, db)
  | some el =>
    match el with
    | [] => (.ok (), { db with el_db := aerase db.el_db id })
    | _ :: _ => (.error .attributeError, db)

/--
`SimpleDB.remove_prop(id_, prop)`: `LookupError` when the id is absent,
`KeyError` when the property is absent from the document; then the property
is deleted from the document and `self.query_prop(prop)` is consulted — which
raises `TypeError` whenever `prop` is still indexed (see `query_prop`), and
in the (unreachable in practice) case `id_ in query_prop(prop)` the line
`val = self.el_db[id_][prop]` re-reads the just-deleted property, a
`KeyError`.
-/
def SimpleDB.remove_prop (db : SimpleDB) (id prop : String) :
    Except PyErr Unit × SimpleDB :=
  match alookup db.el_db id with
  | none => (.error .lookupError, db)
  | some el =>
    match alookup el prop with
    | none => (.error .keyError, db)
    | some _ =>
      let db2 : SimpleDB := { db with el_db := aset db.el_db id (aerase el prop) }
      match db2.query_prop prop with
      | .error e => (.error e, db2)
      | .ok ids =>
        if id ∈ ids then (.error .keyError, db2)
        else (.ok (), db2)

/-- The deserialized pickle blob: presence/content of the two expected
top-level fields `"el_db"` and `"prop_db"`. -/
structure Blob where
  elField : Option (List (String × Doc))
  propField : Option (List (String × ValMap))
deriving DecidableEq, Repr

/--
`SimpleDB.load(fname)`: `input` is the outcome of
`pickle.load(open(fname, "rb"))` — an exception, or a blob.  The two
structures are assigned one after the other: `self.el_db = _in["el_db"]`,
then `self.prop_db = _in["prop_db"]`; a missing `"prop_db"` key therefore
raises `KeyError` *after* the document table has already been replaced.
-/
def SimpleDB.load (db : SimpleDB) (fname : String)
    (input : Except PyErr Blob) : Except PyErr Unit × SimpleDB :=
  match input with
  | .error e => (.error e, db)
  | .ok b =>
    match b.elField with
    | none => (.error .keyError, db)
    | some e =>
      let db1 : SimpleDB := { db with el_db := e }
      match b.propField with
      | none => (.error .keyError, db1)
      | some p => (.ok (), { db1 with prop_db := p, fname := some fname })

namespace db_queries

/-- `db_queries.eq`: `_val == val`. -/
def eq (v1 v2 : Val) : Bool := v1 == v2

/-- `db_queries.ne`: `_val != val`. -/
def ne (v1 v2 : Val) : Bool := !(v1 == v2)

end db_queries

/-! ## Association-list lemmas -/

/-- Duplicate-free keys (always true of a Python dict). -/
def keysND {κ α : Type} (l : List (κ × α)) : Prop := (akeys l).Nodup

instance {κ α : Type} [DecidableEq κ] (l : List (κ × α)) :
    Decidable (keysND l) := by
  unfold keysND; infer_instance

theorem alookup_aset {κ α : Type} [DecidableEq κ] (l : List (κ × α))
    (k : κ) (v : α) (k' : κ) :
    alookup (aset l k v) k' = if k' = k then some v else alookup l k' := by
  induction l with
  | nil => simp [aset, alookup]
  | cons kv rest ih =>
    by_cases hk : k = kv.1
    · subst hk
      by_cases hk' : k' = kv.1 <;> simp [aset, alookup, hk']
    · by_cases hk' : k' = kv.1
      · subst hk'
        simp [aset, alookup, hk, Ne.symm hk]
      · simp [aset, alookup, hk, hk', ih]

theorem alookup_aerase {κ α : Type} [DecidableEq κ] (l : List (κ × α))
    (k k' : κ) :
    alookup (aerase l k) k' = if k' = k then none else alookup l k' := by
  induction l with
  | nil => simp [aerase, alookup]
  | cons kv rest ih =>
    by_cases hk : kv.1 = k
    · subst hk
      by_cases hk' : k' = kv.1 <;>
        simp [aerase, List.filter, alookup, hk'] <;> simpa [aerase, hk'] using ih
    · by_cases hk' : k' = kv.1
      · subst hk'
        simp [aerase, List.filter, alookup, hk, Ne.symm hk]
      · simp [aerase, List.filter, alookup, hk, hk'] at ih ⊢
        simpa [hk'] using ih

theorem mem_of_alookup {κ α : Type} [DecidableEq κ] {l : List (κ × α)}
    {k : κ} {v : α} (h : alookup l k = some v) : (k, v) ∈ l := by
  induction l with
  | nil => simp [alookup] at h
  | cons kv rest ih =>
    by_cases hk : k = kv.1
    · subst hk
      simp [alookup] at h
      subst h
      exact List.mem_cons_self _ _
    · simp [alookup, hk] at h
      exact List.mem_cons_of_mem _ (ih h)

theorem alookup_of_mem {κ α : Type} [DecidableEq κ] {l : List (κ × α)}
    (hnd : keysND l) {k : κ} {v : α} (h : (k, v) ∈ l) :
    alookup l k = some v := by
  induction l with
  | nil => simp at h
  | cons kv rest ih =>
    rcases List.mem_cons.mp h with h1 | h1
    · rw [← h1]
      simp [alookup]
    · have hk : k ≠ kv.1 := by
        intro hkk
        have : kv.1 ∈ akeys rest := by
          rw [← hkk]
          exact List.mem_map_of_mem Prod.fst h1
        exact (List.nodup_cons.mp hnd).1 this
      have hnd' : keysND rest := (List.nodup_cons.mp hnd).2
      simp [alookup, hk]
      exact ih hnd' h1

theorem alookup_none_iff {κ α : Type} [DecidableEq κ] (l : List (κ × α))
    (k : κ) : alookup l k = none ↔ k ∉ akeys l := by
  induction l with
  | nil => simp [alookup, akeys]
  | cons kv rest ih =>
    by_cases hk : k = kv.1
    · subst hk
      simp [alookup, akeys]
    · simp [alookup, akeys, hk, ih]

theorem akeys_aset {κ α : Type} [DecidableEq κ] (l : List (κ × α))
    (k : κ) (v : α) :
    akeys (aset l k v) = if k ∈ akeys l then akeys l else akeys l ++ [k] := by
  induction l with
  | nil => simp [aset, akeys]
  | cons kv rest ih =>
    by_cases hk : k = kv.1
    · subst hk
      simp [aset, akeys]
    · unfold akeys at ih ⊢
      simp only [aset, if_neg hk, List.map_cons]
      rw [ih]
      by_cases hmem : k ∈ List.map Prod.fst rest
      · rw [if_pos hmem, if_pos (by simp [hmem])]
      · rw [if_neg hmem, if_neg (by simp [hk, hmem]), List.cons_append]

theorem keysND_aset {κ α : Type} [DecidableEq κ] {l : List (κ × α)}
    (hnd : keysND l) (k : κ) (v : α) : keysND (aset l k v) := by
  unfold keysND
  rw [akeys_aset]
  by_cases hmem : k ∈ akeys l
  · simpa [hmem] using hnd
  · simp only [hmem, if_false]
    rw [List.nodup_append]
    refine ⟨hnd, List.nodup_singleton _, ?_⟩
    intro a ha hb
    rw [List.mem_singleton] at hb
    subst hb
    exact hmem ha

theorem keysND_aerase {κ α : Type} [DecidableEq κ] {l : List (κ × α)}
    (hnd : keysND l) (k : κ) : keysND (aerase l k) :=
  List.Nodup.sublist (List.Sublist.map Prod.fst (List.filter_sublist l)) hnd

theorem aset_self {κ α : Type} [DecidableEq κ] {l : List (κ × α)}
    {k : κ} {v : α} (h : alookup l k = some v) : aset l k v = l := by
  induction l with
  | nil => simp [alookup] at h
  | cons kv rest ih =>
    obtain ⟨k1, v1⟩ := kv
    by_cases hk : k = k1
    · subst hk
      simp [alookup] at h
      simp [aset, h]
    · simp [alookup, hk] at h
      simp [aset, hk, ih h]

theorem aset_ne_nil {κ α : Type} [DecidableEq κ] (l : List (κ × α))
    (k : κ) (v : α) : aset l k v ≠ [] := by
  cases l with
  | nil => simp [aset]
  | cons kv rest =>
    by_cases hk : k = kv.1 <;> simp [aset, hk]

theorem aset_aset {κ α : Type} [DecidableEq κ] (l : List (κ × α))
    (k : κ) (v w : α) : aset (aset l k v) k w = aset l k w := by
  induction l with
  | nil => simp [aset]
  | cons kv rest ih =>
    by_cases hk : k = kv.1 <;> simp [aset, hk, ih]

theorem mem_sadd (s : List String) (x y : String) :
    y ∈ sadd s x ↔ y ∈ s ∨ y = x := by
  unfold sadd
  by_cases hx : x ∈ s
  · simp only [hx, if_true]
    constructor
    · exact Or.inl
    · rintro (h | rfl) <;> [exact h; exact hx]
  · simp [hx]

theorem sadd_ne_nil (s : List String) (x : String) : sadd s x ≠ [] := by
  unfold sadd
  by_cases hx : x ∈ s
  · simp only [hx, if_true]
    rintro rfl
    simp at hx
  · simp [hx]

theorem mem_supdate (t s : List String) (y : String) :
    y ∈ supdate s t ↔ y ∈ s ∨ y ∈ t := by
  induction t generalizing s with
  | nil => simp [supdate]
  | cons x rest ih =>
    show y ∈ supdate (sadd s x) rest ↔ _
    rw [ih, mem_sadd]
    simp only [List.mem_cons]
    tauto

/-! ## The store/index consistency invariant -/

/-- The triple `(p, v, i)` is present in the Property Index:
`i ∈ self.prop_db[p][v]`. -/
def inIdx (db : SimpleDB) (p : String) (v : Val) (i : String) : Prop :=
  ∃ vm s, alookup db.prop_db p = some vm ∧ alookup vm v = some s ∧ i ∈ s

/-- The identifier set stored at `prop_db[p][v]`, when present. -/
def idxIds (db : SimpleDB) (p : String) (v : Val) : Option (List String) :=
  (alookup db.prop_db p).bind (fun vm => alookup vm v)

/-- Forward direction: every identifier in an index entry `(p, v)` maps to a
stored document having exactly that property with that value. -/
def InvFwd (db : SimpleDB) : Prop :=
  ∀ p v i, inIdx db p v i →
    ∃ d, alookup db.el_db i = some d ∧ alookup d p = some v

/--
Ghost record of the currently excluded `(identifier, property)` assignments:
the "Exclusion set" of the spec is per-assignment information not stored in
the live state, so property-based statements track it alongside the store.
-/
abbrev Xset := List (String × String)

/-- Converse direction: every non-excluded property/value pair of every
stored document appears in the index. -/
def InvConv (db : SimpleDB) (X : Xset) : Prop :=
  ∀ j d, alookup db.el_db j = some d → ∀ p v, alookup d p = some v →
    (j, p) ∉ X → inIdx db p v j

/-- No empty value-set and no empty property map persists in the index. -/
def NoEmpties (db : SimpleDB) : Prop :=
  ∀ p vm, alookup db.prop_db p = some vm →
    vm ≠ [] ∧ ∀ v s, alookup vm v = some s → s ≠ []

/-- Each inner value map of the index is a Python dict: duplicate-free keys. -/
def IdxWF (db : SimpleDB) : Prop :=
  ∀ p vm, alookup db.prop_db p = some vm → keysND vm

/-- The full bidirectional store/index consistency invariant. -/
def StoreInv (db : SimpleDB) (X : Xset) : Prop :=
  InvFwd db ∧ InvConv db X ∧ NoEmpties db ∧ IdxWF db

/-- Index entries never point at an excluded assignment (holds for stores
built only via `add`). -/
def InvMark (db : SimpleDB) (X : Xset) : Prop :=
  ∀ p v i, inIdx db p v i → (i, p) ∉ X

/-! ## Ghost exclusion-set bookkeeping -/

def xmark (X : Xset) (id p : String) : Xset :=
  if (id, p) ∈ X then X else X ++ [(id, p)]

def xunmark (X : Xset) (id p : String) : Xset :=
  X.filter (fun q => decide (q ≠ (id, p)))

/-- Ghost effect of `set_prop id p _ ex` on the exclusion set. -/
def xsetProp (X : Xset) (id p : String) (ex : Bool) : Xset :=
  if ex then xmark X id p else xunmark X id p

/-- Ghost effect of `add _ el ex id` on the exclusion set. -/
def xadd (X : Xset) (id : String) (el : Doc) (ex : List String) : Xset :=
  el.foldl (fun Y pv => xsetProp Y id pv.1 (decide (pv.1 ∈ ex))) X

/-- Ghost effect of `remove id` on the exclusion set. -/
def xremove (X : Xset) (id : String) : Xset :=
  X.filter (fun q => decide (q.1 ≠ id))

theorem mem_xmark (X : Xset) (id p : String) (q : String × String) :
    q ∈ xmark X id p ↔ q ∈ X ∨ q = (id, p) := by
  unfold xmark
  by_cases hx : (id, p) ∈ X
  · simp only [hx, if_true]
    constructor
    · exact Or.inl
    · rintro (h | rfl) <;> [exact h; exact hx]
  · simp [hx]

theorem mem_xunmark (X : Xset) (id p : String) (q : String × String) :
    q ∈ xunmark X id p ↔ q ∈ X ∧ q ≠ (id, p) := by
  simp [xunmark]

theorem mem_xsetProp_ne (X : Xset) (id p : String) (ex : Bool)
    (q : String × String) (hq : q ≠ (id, p)) :
    q ∈ xsetProp X id p ex ↔ q ∈ X := by
  unfold xsetProp
  cases ex <;> simp [mem_xmark, mem_xunmark, hq]

theorem mem_xremove (X : Xset) (id : String) (q : String × String) :
    q ∈ xremove X id ↔ q ∈ X ∧ q.1 ≠ id := by
  simp [xremove]

theorem mem_xadd_ne (id : String) (ex : List String) :
    ∀ (el : Doc) (X : Xset) (q : String × String),
    (q.1 ≠ id ∨ q.2 ∉ akeys el) → (q ∈ xadd X id el ex ↔ q ∈ X) := by
  intro el
  induction el with
  | nil => intro X q _; simp [xadd]
  | cons pv rest ih =>
    intro X q hq
    show q ∈ xadd (xsetProp X id pv.1 (decide (pv.1 ∈ ex))) id rest ex ↔ _
    have hke : q.1 ≠ id ∨ q.2 ∉ akeys rest := by
      rcases hq with h | h
      · exact Or.inl h
      · exact Or.inr (fun hm => h (by simp [akeys] at hm ⊢; exact Or.inr hm))
    rw [ih _ _ hke]
    apply mem_xsetProp_ne
    rcases hq with h | h
    · intro hc; exact h (by rw [hc])
    · intro hc
      exact h (by rw [hc]; simp [akeys])

theorem mem_xadd_self (id : String) (ex : List String) :
    ∀ (el : Doc) (X : Xset) (p : String), keysND el → p ∈ akeys el →
    ((id, p) ∈ xadd X id el ex ↔ p ∈ ex) := by
  intro el
  induction el with
  | nil => intro X p _ hmem; simp [akeys] at hmem
  | cons pv rest ih =>
    intro X p hnd hmem
    show (id, p) ∈ xadd (xsetProp X id pv.1 (decide (pv.1 ∈ ex))) id rest ex ↔ _
    by_cases hp : p = pv.1
    · have hnr : pv.1 ∉ akeys rest := (List.nodup_cons.mp hnd).1
      subst hp
      rw [mem_xadd_ne id ex rest _ _ (Or.inr hnr)]
      unfold xsetProp
      by_cases hin : pv.1 ∈ ex
      · simp [hin, mem_xmark]
      · simp [hin, mem_xunmark]
    · have hmr : p ∈ akeys rest := by
        simp only [akeys, List.map_cons] at hmem
        rcases List.mem_cons.mp hmem with h | h
        · exact absurd h hp
        · exact h
      exact ih _ _ (List.nodup_cons.mp hnd).2 hmr

/-! ## Behaviour of `set_prop` -/

theorem inIdx_iff_getD (db : SimpleDB) (p : String) (v : Val) (i : String) :
    inIdx db p v i ↔
      ∃ s, alookup ((alookup db.prop_db p).getD []) v = some s ∧ i ∈ s := by
  unfold inIdx
  cases h : alookup db.prop_db p with
  | none => simp [alookup]
  | some vm => simp

theorem set_prop_excl_eq (db : SimpleDB) (id prop : String) (val : Val)
    (el : Doc) (hd : alookup db.el_db id = some el)
    (hh : val.hashable = true) :
    db.set_prop id prop val true =
      (.ok (), { db with el_db := aset db.el_db id (aset el prop val) }) := by
  simp [SimpleDB.set_prop, hd, hh, propHashable]

theorem set_prop_incl_eq (db : SimpleDB) (id prop : String) (val : Val)
    (el : Doc) (hd : alookup db.el_db id = some el)
    (hh : val.hashable = true) :
    db.set_prop id prop val false =
      (.ok (), { el_db := aset db.el_db id (aset el prop val),
                 prop_db := aset db.prop_db prop
                   (aset ((alookup db.prop_db prop).getD []) val
                     (sadd ((alookup ((alookup db.prop_db prop).getD []) val).getD []) id)),
                 fname := db.fname }) := by
  simp [SimpleDB.set_prop, hd, hh, propHashable]

theorem set_prop_err (db : SimpleDB) (id prop : String) (val : Val)
    (b : Bool) (el : Doc) (hd : alookup db.el_db id = some el)
    (hh : val.hashable = false) :
    db.set_prop id prop val b = (.error .typeError, db) := by
  simp [SimpleDB.set_prop, hd, hh, propHashable]

theorem mem_optPart {o : Option (List String)} {i : String} :
    i ∈ o.getD [] ↔ ∃ s, o = some s ∧ i ∈ s := by
  cases o <;> simp

theorem setIns_mem (vmD : ValMap) (val : Val) (id : String) (v : Val)
    (i : String) :
    (∃ s, alookup (aset vmD val (sadd ((alookup vmD val).getD []) id)) v
        = some s ∧ i ∈ s)
      ↔ (∃ s, alookup vmD v = some s ∧ i ∈ s) ∨ (v = val ∧ i = id) := by
  rw [alookup_aset]
  by_cases hv : v = val
  · subst hv
    rw [if_pos rfl]
    simp only [Option.some.injEq, exists_eq_left']
    rw [mem_sadd, mem_optPart]
    simp
  · simp [hv]

theorem set_prop_incl_prop_db (db : SimpleDB) (id prop : String) (val : Val)
    (el : Doc) (hd : alookup db.el_db id = some el)
    (hh : val.hashable = true) :
    (db.set_prop id prop val false).2.prop_db =
      aset db.prop_db prop
        (aset ((alookup db.prop_db prop).getD []) val
          (sadd ((alookup ((alookup db.prop_db prop).getD []) val).getD []) id)) := by
  rw [set_prop_incl_eq db id prop val el hd hh]

theorem set_prop_incl_el_db (db : SimpleDB) (id prop : String) (val : Val)
    (el : Doc) (hd : alookup db.el_db id = some el)
    (hh : val.hashable = true) :
    (db.set_prop id prop val false).2.el_db =
      aset db.el_db id (aset el prop val) := by
  rw [set_prop_incl_eq db id prop val el hd hh]

theorem inIdx_set_prop_incl (db : SimpleDB) (id prop : String) (val : Val)
    (el : Doc) (hd : alookup db.el_db id = some el)
    (hh : val.hashable = true) (p : String) (v : Val) (i : String) :
    inIdx (db.set_prop id prop val false).2 p v i ↔
      inIdx db p v i ∨ (p = prop ∧ v = val ∧ i = id) := by
  unfold inIdx
  rw [set_prop_incl_prop_db db id prop val el hd hh]
  by_cases hp : p = prop
  · subst hp
    constructor
    · rintro ⟨vm, s, hvm, hs, hi⟩
      rw [alookup_aset, if_pos rfl] at hvm
      obtain rfl := Option.some.inj hvm
      rcases (setIns_mem _ val id v i).mp ⟨s, hs, hi⟩ with hleft | ⟨hv, hii⟩
      · exact Or.inl ((inIdx_iff_getD db p v i).mpr hleft)
      · exact Or.inr ⟨rfl, hv, hii⟩
    · rintro (hidx | ⟨-, hv, hii⟩)
      · rcases (setIns_mem _ val id v i).mpr
          (Or.inl ((inIdx_iff_getD db p v i).mp hidx)) with ⟨s, hs, hi⟩
        exact ⟨_, s, by rw [alookup_aset, if_pos rfl], hs, hi⟩
      · rcases (setIns_mem ((alookup db.prop_db p).getD []) val id v i).mpr
          (Or.inr ⟨hv, hii⟩) with ⟨s, hs, hi⟩
        exact ⟨_, s, by rw [alookup_aset, if_pos rfl], hs, hi⟩
  · constructor
    · rintro ⟨vm, s, hvm, hs, hi⟩
      rw [alookup_aset, if_neg hp] at hvm
      exact Or.inl ⟨vm, s, hvm, hs, hi⟩
    · rintro (⟨vm, s, hvm, hs, hi⟩ | ⟨hp', -, -⟩)
      · exact ⟨vm, s, by rw [alookup_aset, if_neg hp]; exact hvm, hs, hi⟩
      · exact absurd hp' hp

theorem inIdx_prop_db_eq {db db' : SimpleDB}
    (h : db'.prop_db = db.prop_db) (p : String) (v : Val) (i : String) :
    inIdx db' p v i ↔ inIdx db p v i := by
  unfold inIdx
  rw [h]

theorem noEmpties_set_prop_incl (db : SimpleDB) (id prop : String) (val : Val)
    (el : Doc) (hd : alookup db.el_db id = some el)
    (hh : val.hashable = true) (hne : NoEmpties db) :
    NoEmpties (db.set_prop id prop val false).2 := by
  rw [set_prop_incl_eq db id prop val el hd hh]
  intro p vm hvm
  simp only [alookup_aset] at hvm
  by_cases hp : p = prop
  · rw [if_pos hp] at hvm
    obtain rfl := (Option.some.injEq _ _ ▸ hvm).symm
    refine ⟨aset_ne_nil _ _ _, ?_⟩
    intro v s hs
    rw [alookup_aset] at hs
    by_cases hv : v = val
    · rw [if_pos hv] at hs
      obtain rfl := (Option.some.injEq _ _ ▸ hs).symm
      exact sadd_ne_nil _ _
    · rw [if_neg hv] at hs
      cases hlk : alookup db.prop_db prop with
      | none => rw [hlk] at hs; simp [alookup] at hs
      | some vm0 =>
        rw [hlk] at hs
        exact ((hne prop vm0 hlk).2 v s (by simpa using hs))
  · rw [if_neg hp] at hvm
    exact hne p vm hvm

theorem idxWF_set_prop_incl (db : SimpleDB) (id prop : String) (val : Val)
    (el : Doc) (hd : alookup db.el_db id = some el)
    (hh : val.hashable = true) (hwf : IdxWF db) :
    IdxWF (db.set_prop id prop val false).2 := by
  rw [set_prop_incl_eq db id prop val el hd hh]
  intro p vm hvm
  simp only [alookup_aset] at hvm
  by_cases hp : p = prop
  · rw [if_pos hp] at hvm
    obtain rfl := (Option.some.injEq _ _ ▸ hvm).symm
    apply keysND_aset
    cases hlk : alookup db.prop_db prop with
    | none => simp [keysND, akeys]
    | some vm0 => simpa using hwf prop vm0 hlk
  · rw [if_neg hp] at hvm
    exact hwf p vm hvm

/-! ## The indexing loop of `add` preserves the invariant -/

/--
Intermediate state invariant while `add` is indexing the freshly stored
document `el` under `id`: `done` is the already-processed prefix of the
items loop.
-/
def AddMid (db : SimpleDB) (id : String) (el : Doc)
    (done : List (String × Val)) (ex : List String) (S : SimpleDB) : Prop :=
  S.el_db = aset db.el_db id el ∧
  S.fname = db.fname ∧
  (∀ p v i, inIdx S p v i →
    inIdx db p v i ∨
      (i = id ∧ alookup el p = some v ∧ p ∉ ex ∧ p ∈ akeys done)) ∧
  (∀ p v i, inIdx db p v i → inIdx S p v i) ∧
  (∀ pv : String × Val, pv ∈ done → pv.1 ∉ ex → inIdx S pv.1 pv.2 id) ∧
  NoEmpties S ∧ IdxWF S

theorem indexProps_addMid (db : SimpleDB) (id : String) (el : Doc)
    (ex : List String) (hnd : keysND el) :
    ∀ (rest done : List (String × Val)) (S : SimpleDB), el = done ++ rest →
    AddMid db id el done ex S →
    ∀ S', S.indexProps id ex rest = (.ok (), S') →
    AddMid db id el el ex S' := by
  intro rest
  induction rest with
  | nil =>
    intro done S heq hmid S' hrun
    obtain rfl : S = S' := congrArg Prod.snd hrun
    rw [List.append_nil] at heq
    rwa [← heq] at hmid
  | cons pv rest ih =>
    intro done S heq hmid S' hrun
    obtain ⟨heldb, hfn, hfwd, hgrow, hdone, hne, hwf⟩ := hmid
    have hmem : pv ∈ el := by
      rw [heq]
      exact List.mem_append_right done (List.mem_cons_self _ _)
    have hlel : alookup el pv.1 = some pv.2 := alookup_of_mem hnd hmem
    have hdS : alookup S.el_db id = some el := by
      rw [heldb, alookup_aset, if_pos rfl]
    have hself : aset el pv.1 pv.2 = el := aset_self hlel
    have hup : aset S.el_db id (aset el pv.1 pv.2) = S.el_db := by
      rw [hself, heldb, aset_aset]
    have heq' : el = (done ++ [pv]) ++ rest := by
      rw [List.append_assoc]
      simpa using heq
    by_cases hv : pv.2.hashable
    · by_cases hb : pv.1 ∈ ex
      · -- excluded item: `set_prop` only rewrites the stored document in place
        have hS2 : S.set_prop id pv.1 pv.2 true = (.ok (), S) := by
          rw [set_prop_excl_eq S id pv.1 pv.2 el hdS hv, hup]
        unfold SimpleDB.indexProps at hrun
        rw [show (decide (pv.1 ∈ ex)) = true by simp [hb], hS2] at hrun
        refine ih (done ++ [pv]) S heq' ?_ S' hrun
        refine ⟨heldb, hfn, ?_, hgrow, ?_, hne, hwf⟩
        · intro p v i h
          rcases hfwd p v i h with h1 | ⟨h1, h2, h3, h4⟩
          · exact Or.inl h1
          · exact Or.inr ⟨h1, h2, h3, by simp [akeys] at h4 ⊢; exact Or.inl h4⟩
        · intro pv' hpv' hex
          rcases List.mem_append.mp hpv' with h1 | h1
          · exact hdone pv' h1 hex
          · rw [List.mem_singleton.mp h1] at hex
            exact absurd hb hex
      · -- indexed item: `set_prop` adds the `(prop, val, id)` index triple
        have hfix := set_prop_incl_eq S id pv.1 pv.2 el hdS hv
        have hiff := inIdx_set_prop_incl S id pv.1 pv.2 el hdS hv
        have hS2el : (S.set_prop id pv.1 pv.2 false).2.el_db = aset db.el_db id el := by
          rw [set_prop_incl_el_db S id pv.1 pv.2 el hdS hv, hup, heldb]
        have hS2fn : (S.set_prop id pv.1 pv.2 false).2.fname = db.fname := by
          rw [hfix]
          exact hfn
        unfold SimpleDB.indexProps at hrun
        rw [show (decide (pv.1 ∈ ex)) = false by simp [hb], hfix] at hrun
        refine ih (done ++ [pv]) (S.set_prop id pv.1 pv.2 false).2 heq' ?_ S' ?_
        · refine ⟨hS2el, hS2fn, ?_, ?_, ?_,
            noEmpties_set_prop_incl S id pv.1 pv.2 el hdS hv hne,
            idxWF_set_prop_incl S id pv.1 pv.2 el hdS hv hwf⟩
          · intro p v i h
            rcases (hiff p v i).mp h with h1 | ⟨hp, hv2, hi⟩
            · rcases hfwd p v i h1 with h2 | ⟨h2, h3, h4, h5⟩
              · exact Or.inl h2
              · exact Or.inr ⟨h2, h3, h4, by simp [akeys] at h5 ⊢; exact Or.inl h5⟩
            · refine Or.inr ⟨hi, ?_, ?_, ?_⟩
              · rw [hp, hv2]
                exact hlel
              · rw [hp]
                exact hb
              · rw [hp]
                simp [akeys]
          · intro p v i h
            exact (hiff p v i).mpr (Or.inl (hgrow p v i h))
          · intro pv' hpv' hex
            rcases List.mem_append.mp hpv' with h1 | h1
            · exact (hiff pv'.1 pv'.2 id).mpr (Or.inl (hdone pv' h1 hex))
            · rw [List.mem_singleton.mp h1]
              exact (hiff pv.1 pv.2 id).mpr (Or.inr ⟨rfl, rfl, rfl⟩)
        · rw [hfix]
          exact hrun
    · exfalso
      have herr := set_prop_err S id pv.1 pv.2 (decide (pv.1 ∈ ex)) el hdS
        (by simpa using hv)
      unfold SimpleDB.indexProps at hrun
      rw [herr] at hrun
      exact absurd (congrArg Prod.fst hrun) (by simp)

theorem add_ok_addMid (db : SimpleDB) (el : Doc) (ex : List String)
    (id : String) (db' : SimpleDB) (hnd : keysND el)
    (hne : NoEmpties db) (hwf : IdxWF db)
    (hok : db.add el ex id = (.ok id, db')) :
    AddMid db id el el ex db' := by
  by_cases hval : addLoopValid el
  · have hunf : db.add el ex id =
        (match SimpleDB.indexProps { db with el_db := aset db.el_db id el }
            id ex el with
         | (.error e, db3) => (.error e, db3)
         | (.ok _, db3) => (.ok id, db3)) := by
      unfold SimpleDB.add
      rw [if_pos hval]
    rw [hunf] at hok
    have hinit : AddMid db id el [] ex
        { db with el_db := aset db.el_db id el } := by
      refine ⟨rfl, rfl, ?_, ?_, ?_, hne, hwf⟩
      · intro p v i h
        exact Or.inl ((inIdx_prop_db_eq rfl p v i).mp h)
      · intro p v i h
        exact (inIdx_prop_db_eq rfl p v i).mpr h
      · intro pv hpv
        simp at hpv
    cases hip : SimpleDB.indexProps { db with el_db := aset db.el_db id el }
        id ex el with
    | mk fst snd =>
      rw [hip] at hok
      cases fst with
      | error e => exact absurd (congrArg Prod.fst hok) (by simp)
      | ok u =>
        cases u
        obtain rfl : snd = db' := congrArg Prod.snd hok
        exact indexProps_addMid db id el ex hnd el [] _ (by simp) hinit snd
          (by rw [hip])
  · have herr : db.add el ex id = (.error .typeError, db) := by
      unfold SimpleDB.add
      rw [if_neg hval]
    rw [herr] at hok
    exact absurd (congrArg Prod.fst hok) (by simp)

theorem add_preserves (db : SimpleDB) (X : Xset) (el : Doc)
    (ex : List String) (id : String) (db' : SimpleDB)
    (hfresh : alookup db.el_db id = none) (hnd : keysND el)
    (hok : db.add el ex id = (.ok id, db'))
    (hinv : StoreInv db X) :
    StoreInv db' (xadd X id el ex) ∧
      (InvMark db X → InvMark db' (xadd X id el ex)) := by
  obtain ⟨hfw, hcv, hne, hwf⟩ := hinv
  obtain ⟨heldb, hfn, hfwd2, hgrow, hdone, hne2, hwf2⟩ :=
    add_ok_addMid db el ex id db' hnd hne hwf hok
  have hold_id : ∀ p v, ¬ inIdx db p v id := by
    intro p v h
    obtain ⟨d, hd, -⟩ := hfw p v id h
    rw [hfresh] at hd
    cases hd
  have hel' : ∀ j, alookup db'.el_db j =
      if j = id then some el else alookup db.el_db j := by
    intro j
    rw [heldb, alookup_aset]
  refine ⟨⟨?_, ?_, hne2, hwf2⟩, ?_⟩
  · -- forward direction
    intro p v i h
    rcases hfwd2 p v i h with h1 | ⟨h1, h2, -, -⟩
    · obtain ⟨d, hd, hdp⟩ := hfw p v i h1
      have hine : i ≠ id := by
        intro he
        rw [he, hfresh] at hd
        cases hd
      exact ⟨d, by rw [hel', if_neg hine]; exact hd, hdp⟩
    · exact ⟨el, by rw [hel', if_pos h1], h2⟩
  · -- converse direction
    intro j d hj p v hdp hmark
    rw [hel'] at hj
    by_cases hji : j = id
    · rw [if_pos hji] at hj
      obtain rfl := Option.some.inj hj
      have hpmem : p ∈ akeys el := by
        have := mem_of_alookup hdp
        exact List.mem_map_of_mem Prod.fst this
      have hpex : p ∉ ex := by
        intro hin
        exact hmark (by
          rw [hji]
          exact (mem_xadd_self id ex el X p hnd hpmem).mpr hin)
      rw [hji]
      exact hdone (p, v) (mem_of_alookup hdp) hpex
    · rw [if_neg hji] at hj
      have hmark0 : (j, p) ∉ X := by
        intro hin
        exact hmark ((mem_xadd_ne id ex el X (j, p) (Or.inl hji)).mpr hin)
      exact hgrow p v j (hcv j d hj p v hdp hmark0)
  · -- index entries stay non-excluded
    intro hmk p v i h
    rcases hfwd2 p v i h with h1 | ⟨h1, h2, h3, -⟩
    · have hine : i ≠ id := by
        intro he
        rw [he] at h1
        exact hold_id p v h1
      intro hin
      exact hmk p v i h1 ((mem_xadd_ne id ex el X (i, p) (Or.inl hine)).mp hin)
    · have hpmem : p ∈ akeys el := List.mem_map_of_mem Prod.fst (mem_of_alookup h2)
      intro hin
      rw [h1] at hin
      exact h3 ((mem_xadd_self id ex el X p hnd hpmem).mp hin)

/-! ## The other mutating operations preserve the invariant -/

theorem set_prop_excl_prop_db (db : SimpleDB) (id prop : String) (val : Val)
    (el : Doc) (hd : alookup db.el_db id = some el)
    (hh : val.hashable = true) :
    (db.set_prop id prop val true).2.prop_db = db.prop_db := by
  rw [set_prop_excl_eq db id prop val el hd hh]

theorem inIdx_set_prop_excl (db : SimpleDB) (id prop : String) (val : Val)
    (el : Doc) (hd : alookup db.el_db id = some el)
    (hh : val.hashable = true) (p : String) (v : Val) (i : String) :
    inIdx (db.set_prop id prop val true).2 p v i ↔ inIdx db p v i :=
  inIdx_prop_db_eq (set_prop_excl_prop_db db id prop val el hd hh) p v i

theorem set_prop_el_db_lookup (db : SimpleDB) (id prop : String) (val : Val)
    (b : Bool) (el : Doc) (hd : alookup db.el_db id = some el)
    (hh : val.hashable = true) (j : String) :
    alookup (db.set_prop id prop val b).2.el_db j =
      if j = id then some (aset el prop val) else alookup db.el_db j := by
  cases b with
  | false =>
    rw [set_prop_incl_el_db db id prop val el hd hh, alookup_aset]
  | true =>
    rw [set_prop_excl_eq db id prop val el hd hh]
    exact alookup_aset db.el_db id (aset el prop val) j

theorem set_prop_preserves (db : SimpleDB) (X : Xset) (id p0 : String)
    (v0 : Val) (b : Bool) (db' : SimpleDB)
    (hno : ∀ d, alookup db.el_db id = some d →
      alookup d p0 = none ∨ alookup d p0 = some v0)
    (hok : db.set_prop id p0 v0 b = (.ok (), db'))
    (hinv : StoreInv db X) :
    StoreInv db' (xsetProp X id p0 b) := by
  obtain ⟨hfw, hcv, hne, hwf⟩ := hinv
  cases hlk : alookup db.el_db id with
  | none =>
    exfalso
    have hbad : db.set_prop id p0 v0 b = (.error .lookupError, db) := by
      unfold SimpleDB.set_prop
      rw [hlk]
    rw [hbad] at hok
    exact absurd (congrArg Prod.fst hok) (by simp)
  | some el =>
    by_cases hv : v0.hashable
    · obtain rfl : (db.set_prop id p0 v0 b).2 = db' := congrArg Prod.snd hok
      have hpair : ∀ p v, alookup el p = some v →
          alookup (aset el p0 v0) p = some v := by
        intro p v hp
        rw [alookup_aset]
        by_cases hpp : p = p0
        · rcases hno el hlk with h0 | h0
          · rw [hpp] at hp
            rw [hp] at h0
            cases h0
          · have hvv : v0 = v := Option.some.inj (h0.symm.trans (hpp ▸ hp))
            rw [if_pos hpp, hvv]
        · rw [if_neg hpp]
          exact hp
      have hel' := set_prop_el_db_lookup db id p0 v0 b el hlk hv
      cases b with
      | false =>
        have hiff := inIdx_set_prop_incl db id p0 v0 el hlk hv
        refine ⟨?_, ?_, noEmpties_set_prop_incl db id p0 v0 el hlk hv hne,
          idxWF_set_prop_incl db id p0 v0 el hlk hv hwf⟩
        · intro p v i h
          rcases (hiff p v i).mp h with h1 | ⟨hp, hvv, hi⟩
          · obtain ⟨d, hd, hdp⟩ := hfw p v i h1
            by_cases hii : i = id
            · subst hii
              rw [hlk] at hd
              obtain rfl := Option.some.inj hd
              exact ⟨aset el p0 v0, by rw [hel', if_pos rfl], hpair p v hdp⟩
            · exact ⟨d, by rw [hel', if_neg hii]; exact hd, hdp⟩
          · refine ⟨aset el p0 v0, ?_, ?_⟩
            · rw [hi, hel', if_pos rfl]
            · rw [hp, hvv, alookup_aset, if_pos rfl]
        · intro j d hj p v hdp hmark
          rw [hel'] at hj
          by_cases hji : j = id
          · rw [if_pos hji] at hj
            obtain rfl := Option.some.inj hj
            rw [alookup_aset] at hdp
            by_cases hpp : p = p0
            · rw [if_pos hpp] at hdp
              exact (hiff p v j).mpr
                (Or.inr ⟨hpp, (Option.some.inj hdp).symm, hji⟩)
            · rw [if_neg hpp] at hdp
              have hmark0 : (j, p) ∉ X := by
                intro hin
                refine hmark ((mem_xunmark X id p0 (j, p)).mpr ⟨hin, ?_⟩)
                intro hc
                exact hpp (congrArg Prod.snd hc)
              rw [hji] at hmark0 ⊢
              exact (hiff p v id).mpr (Or.inl (hcv id el hlk p v hdp hmark0))
          · rw [if_neg hji] at hj
            have hmark0 : (j, p) ∉ X := by
              intro hin
              refine hmark ((mem_xunmark X id p0 (j, p)).mpr ⟨hin, ?_⟩)
              intro hc
              exact hji (congrArg Prod.fst hc)
            exact (hiff p v j).mpr (Or.inl (hcv j d hj p v hdp hmark0))
      | true =>
        have hiff := inIdx_set_prop_excl db id p0 v0 el hlk hv
        have hpdb := set_prop_excl_prop_db db id p0 v0 el hlk hv
        refine ⟨?_, ?_, ?_, ?_⟩
        · intro p v i h
          obtain ⟨d, hd, hdp⟩ := hfw p v i ((hiff p v i).mp h)
          by_cases hii : i = id
          · subst hii
            rw [hlk] at hd
            obtain rfl := Option.some.inj hd
            exact ⟨aset el p0 v0, by rw [hel', if_pos rfl], hpair p v hdp⟩
          · exact ⟨d, by rw [hel', if_neg hii]; exact hd, hdp⟩
        · intro j d hj p v hdp hmark
          rw [hel'] at hj
          by_cases hji : j = id
          · rw [if_pos hji] at hj
            obtain rfl := Option.some.inj hj
            rw [alookup_aset] at hdp
            by_cases hpp : p = p0
            · exfalso
              apply hmark
              rw [hji, hpp]
              exact (mem_xmark X id p0 (id, p0)).mpr (Or.inr rfl)
            · rw [if_neg hpp] at hdp
              have hmark0 : (j, p) ∉ X := by
                intro hin
                exact hmark ((mem_xmark X id p0 (j, p)).mpr (Or.inl hin))
              rw [hji] at hmark0 ⊢
              exact (hiff p v id).mpr (hcv id el hlk p v hdp hmark0)
          · rw [if_neg hji] at hj
            have hmark0 : (j, p) ∉ X := by
              intro hin
              exact hmark ((mem_xmark X id p0 (j, p)).mpr (Or.inl hin))
            exact (hiff p v j).mpr (hcv j d hj p v hdp hmark0)
        · intro p vm hvm
          rw [hpdb] at hvm
          exact hne p vm hvm
        · intro p vm hvm
          rw [hpdb] at hvm
          exact hwf p vm hvm
    · exfalso
      rw [set_prop_err db id p0 v0 b el hlk (by simpa using hv)] at hok
      exact absurd (congrArg Prod.fst hok) (by simp)

theorem remove_preserves (db : SimpleDB) (X : Xset) (id : String)
    (db' : SimpleDB) (hok : db.remove id = (.ok (), db'))
    (hinv : StoreInv db X) : StoreInv db' (xremove X id) := by
  obtain ⟨hfw, hcv, hne, hwf⟩ := hinv
  cases hlk : alookup db.el_db id with
  | none =>
    exfalso
    have hbad : db.remove id = (.error .lookupError, db) := by
      simp [SimpleDB.remove, hlk]
    rw [hbad] at hok
    exact absurd (congrArg Prod.fst hok) (by simp)
  | some el =>
    cases el with
    | cons pv rest =>
      exfalso
      have hbad : db.remove id = (.error .attributeError, db) := by
        simp [SimpleDB.remove, hlk]
      rw [hbad] at hok
      exact absurd (congrArg Prod.fst hok) (by simp)
    | nil =>
      have hres : db.remove id =
          (.ok (), { db with el_db := aerase db.el_db id }) := by
        simp [SimpleDB.remove, hlk]
      rw [hres] at hok
      obtain rfl : ({ db with el_db := aerase db.el_db id } : SimpleDB) = db' :=
        congrArg Prod.snd hok
      refine ⟨?_, ?_, hne, hwf⟩
      · intro p v i h
        have h0 : inIdx db p v i := (inIdx_prop_db_eq rfl p v i).mp h
        obtain ⟨d, hd, hdp⟩ := hfw p v i h0
        have hii : i ≠ id := by
          intro he
          rw [he, hlk] at hd
          obtain rfl := Option.some.inj hd
          simp [alookup] at hdp
        refine ⟨d, ?_, hdp⟩
        show alookup (aerase db.el_db id) i = some d
        rw [alookup_aerase, if_neg hii]
        exact hd
      · intro j d hj p v hdp hmark
        have hj' : alookup (aerase db.el_db id) j = some d := hj
        rw [alookup_aerase] at hj'
        by_cases hji : j = id
        · rw [if_pos hji] at hj'
          cases hj'
        · rw [if_neg hji] at hj'
          have hmark0 : (j, p) ∉ X := by
            intro hin
            exact hmark ((mem_xremove X id (j, p)).mpr ⟨hin, hji⟩)
          exact (inIdx_prop_db_eq rfl p v j).mpr (hcv j d hj' p v hdp hmark0)

theorem remove_prop_preserves (db : SimpleDB) (X : Xset) (id p0 : String)
    (db' : SimpleDB) (hok : db.remove_prop id p0 = (.ok (), db'))
    (hinv : StoreInv db X) : StoreInv db' (xunmark X id p0) := by
  obtain ⟨hfw, hcv, hne, hwf⟩ := hinv
  cases hlk : alookup db.el_db id with
  | none =>
    exfalso
    have hbad : db.remove_prop id p0 = (.error .lookupError, db) := by
      simp [SimpleDB.remove_prop, hlk]
    rw [hbad] at hok
    exact absurd (congrArg Prod.fst hok) (by simp)
  | some el =>
    cases hpe : alookup el p0 with
    | none =>
      exfalso
      have hbad : db.remove_prop id p0 = (.error .keyError, db) := by
        simp [SimpleDB.remove_prop, hlk, hpe]
      rw [hbad] at hok
      exact absurd (congrArg Prod.fst hok) (by simp)
    | some w =>
      cases hq : alookup db.prop_db p0 with
      | some vm =>
        exfalso
        have hvm : vm ≠ [] := (hne p0 vm hq).1
        have hbad : (db.remove_prop id p0).1 = .error .typeError := by
          simp [SimpleDB.remove_prop, SimpleDB.query_prop, hlk, hpe, hq, hvm]
        rw [hok] at hbad
        cases hbad
      | none =>
        have hres : db.remove_prop id p0 =
            (.ok (), { db with el_db := aset db.el_db id (aerase el p0) }) := by
          simp [SimpleDB.remove_prop, SimpleDB.query_prop, hlk, hpe, hq]
        rw [hres] at hok
        obtain rfl :
            ({ db with el_db := aset db.el_db id (aerase el p0) } : SimpleDB)
              = db' := congrArg Prod.snd hok
        refine ⟨?_, ?_, hne, hwf⟩
        · intro p v i h
          have h0 : inIdx db p v i := (inIdx_prop_db_eq rfl p v i).mp h
          have hpne : p ≠ p0 := by
            intro he
            obtain ⟨vm, s, hvm, -, -⟩ := h0
            rw [he, hq] at hvm
            cases hvm
          obtain ⟨d, hd, hdp⟩ := hfw p v i h0
          by_cases hii : i = id
          · refine ⟨aerase el p0, ?_, ?_⟩
            · show alookup (aset db.el_db id (aerase el p0)) i = _
              rw [alookup_aset, if_pos hii]
            · rw [alookup_aerase, if_neg hpne]
              rw [hii, hlk] at hd
              rw [← Option.some.inj hd] at hdp
              exact hdp
          · refine ⟨d, ?_, hdp⟩
            show alookup (aset db.el_db id (aerase el p0)) i = some d
            rw [alookup_aset, if_neg hii]
            exact hd
        · intro j d hj p v hdp hmark
          have hj' : alookup (aset db.el_db id (aerase el p0)) j = some d := hj
          rw [alookup_aset] at hj'
          by_cases hji : j = id
          · rw [if_pos hji] at hj'
            rw [← Option.some.inj hj', alookup_aerase] at hdp
            by_cases hpp : p = p0
            · rw [if_pos hpp] at hdp
              cases hdp
            · rw [if_neg hpp] at hdp
              have hmark0 : (j, p) ∉ X := by
                intro hin
                refine hmark ((mem_xunmark X id p0 (j, p)).mpr ⟨hin, ?_⟩)
                intro hc
                exact hpp (congrArg Prod.snd hc)
              rw [hji] at hmark0 ⊢
              exact (inIdx_prop_db_eq rfl p v id).mpr (hcv id el hlk p v hdp hmark0)
          · rw [if_neg hji] at hj'
            have hmark0 : (j, p) ∉ X := by
              intro hin
              refine hmark ((mem_xunmark X id p0 (j, p)).mpr ⟨hin, ?_⟩)
              intro hc
              exact hji (congrArg Prod.fst hc)
            exact (inIdx_prop_db_eq rfl p v j).mpr (hcv j d hj' p v hdp hmark0)

/-! ## Reachable stores -/

/-- `set_prop id p v _` does not change an already-present property of the
document to a different value (the restriction forced by the non-retraction
caveat of `set_prop`). -/
def noOverwrite (db : SimpleDB) (id p : String) (v : Val) : Prop :=
  ∀ d, alookup db.el_db id = some d →
    alookup d p = none ∨ alookup d p = some v

/--
Stores reachable from the empty store by successful
`add`/`set_prop`/`remove`/`remove_prop` calls, where every `add` supplies a
fresh identifier (the UUID generator) and a duplicate-free document (a
Python dict), and no `set_prop` changes an already-present property to a
different value.  The ghost exclusion set `X` is tracked alongside.
-/
inductive Reach : SimpleDB → Xset → Prop where
  | base : Reach dbEmpty []
  | step_add : ∀ db X el ex id db', Reach db X →
      alookup db.el_db id = none → keysND el →
      db.add el ex id = (.ok id, db') →
      Reach db' (xadd X id el ex)
  | step_set : ∀ db X id p v b db', Reach db X →
      noOverwrite db id p v →
      db.set_prop id p v b = (.ok (), db') →
      Reach db' (xsetProp X id p b)
  | step_remove : ∀ db X id db', Reach db X →
      db.remove id = (.ok (), db') →
      Reach db' (xremove X id)
  | step_remove_prop : ∀ db X id p db', Reach db X →
      db.remove_prop id p = (.ok (), db') →
      Reach db' (xunmark X id p)

/-- Stores built only via `add` (fresh identifiers, duplicate-free docs). -/
inductive ReachAdd : SimpleDB → Xset → Prop where
  | base : ReachAdd dbEmpty []
  | step : ∀ db X el ex id db', ReachAdd db X →
      alookup db.el_db id = none → keysND el →
      db.add el ex id = (.ok id, db') →
      ReachAdd db' (xadd X id el ex)

theorem storeInv_empty : StoreInv dbEmpty [] := by
  refine ⟨?_, ?_, ?_, ?_⟩
  · rintro p v i ⟨vm, s, hvm, -, -⟩
    cases hvm
  · intro j d hj
    cases hj
  · intro p vm hvm
    cases hvm
  · intro p vm hvm
    cases hvm

theorem reach_storeInv {db : SimpleDB} {X : Xset} (h : Reach db X) :
    StoreInv db X := by
  induction h with
  | base => exact storeInv_empty
  | step_add db X el ex id db' hre hfresh hnd hok ih =>
    exact (add_preserves db X el ex id db' hfresh hnd hok ih).1
  | step_set db X id p v b db' hre hno hok ih =>
    exact set_prop_preserves db X id p v b db' hno hok ih
  | step_remove db X id db' hre hok ih =>
    exact remove_preserves db X id db' hok ih
  | step_remove_prop db X id p db' hre hok ih =>
    exact remove_prop_preserves db X id p db' hok ih

theorem reachAdd_reach {db : SimpleDB} {X : Xset} (h : ReachAdd db X) :
    Reach db X := by
  induction h with
  | base => exact Reach.base
  | step db X el ex id db' hre hfresh hnd hok ih =>
    exact Reach.step_add db X el ex id db' ih hfresh hnd hok

theorem reachAdd_invMark {db : SimpleDB} {X : Xset} (h : ReachAdd db X) :
    InvMark db X := by
  induction h with
  | base =>
    rintro p v i ⟨vm, s, hvm, -, -⟩
    cases hvm
  | step db X el ex id db' hre hfresh hnd hok ih =>
    exact (add_preserves db X el ex id db' hfresh hnd hok
      (reach_storeInv (reachAdd_reach hre))).2 ih

/-! ## Query characterization -/

theorem mem_query_fold (t : Val → Val → Bool) (v : Val) :
    ∀ (vm : ValMap) (acc : List String) (i : String),
    (i ∈ vm.foldl (fun acc vs => if t vs.1 v then supdate acc vs.2 else acc) acc ↔
      i ∈ acc ∨ ∃ vs, vs ∈ vm ∧ t vs.1 v = true ∧ i ∈ vs.2) := by
  intro vm
  induction vm with
  | nil =>
    intro acc i
    simp
  | cons vs0 vmr ih =>
    intro acc i
    show i ∈ List.foldl _ (if t vs0.1 v then supdate acc vs0.2 else acc) vmr ↔ _
    rw [ih]
    by_cases ht : t vs0.1 v
    · rw [if_pos ht, mem_supdate]
      constructor
      · rintro ((h | h) | ⟨vs, hm, htv, hiv⟩)
        · exact Or.inl h
        · exact Or.inr ⟨vs0, List.mem_cons_self _ _, ht, h⟩
        · exact Or.inr ⟨vs, List.mem_cons_of_mem _ hm, htv, hiv⟩
      · rintro (h | ⟨vs, hm, htv, hiv⟩)
        · exact Or.inl (Or.inl h)
        · rcases List.mem_cons.mp hm with rfl | hm'
          · exact Or.inl (Or.inr hiv)
          · exact Or.inr ⟨vs, hm', htv, hiv⟩
    · rw [if_neg ht]
      constructor
      · rintro (h | ⟨vs, hm, htv, hiv⟩)
        · exact Or.inl h
        · exact Or.inr ⟨vs, List.mem_cons_of_mem _ hm, htv, hiv⟩
      · rintro (h | ⟨vs, hm, htv, hiv⟩)
        · exact Or.inl h
        · rcases List.mem_cons.mp hm with rfl | hm'
          · exact absurd htv (by simpa using ht)
          · exact Or.inr ⟨vs, hm', htv, hiv⟩

theorem mem_query (db : SimpleDB) (p : String) (t : Val → Val → Bool)
    (v : Val) (i : String) :
    i ∈ db.query p t v ↔
      ∃ vm vs, alookup db.prop_db p = some vm ∧ vs ∈ vm ∧
        t vs.1 v = true ∧ i ∈ vs.2 := by
  unfold SimpleDB.query
  cases h : alookup db.prop_db p with
  | none => simp
  | some vm =>
    rw [mem_query_fold]
    simp

theorem mem_query_eq_inIdx (db : SimpleDB) (hwf : IdxWF db) (p : String)
    (v : Val) (i : String) :
    i ∈ db.query p db_queries.eq v ↔ inIdx db p v i := by
  rw [mem_query]
  constructor
  · rintro ⟨vm, vs, hvm, hmem, htv, hiv⟩
    have hv : vs.1 = v := by simpa [db_queries.eq] using htv
    refine ⟨vm, vs.2, hvm, ?_, hiv⟩
    rw [← hv]
    exact alookup_of_mem (hwf p vm hvm) (by simpa using hmem)
  · rintro ⟨vm, s, hvm, hs, hiv⟩
    exact ⟨vm, (v, s), hvm, mem_of_alookup hs, by simp [db_queries.eq], hiv⟩

theorem query_absent (db : SimpleDB) (p : String)
    (h : alookup db.prop_db p = none) (t : Val → Val → Bool) (v : Val) :
    db.query p t v = [] := by
  unfold SimpleDB.query
  rw [h]

/-! ## Concrete states used by the claim theorems -/

/-- The store after `add({"a": 1})` with generated id `"i"` on a fresh store. -/
def dbOne : SimpleDB := (dbEmpty.add [("a", Val.vint 1)] [] "i").2

/-- A store holding an empty document under `"i"` and `{"a": 1}` under `"j"`
(reachable e.g. by `add({}, id="i")` and `add({"a": 1}, id="j")`). -/
def dbIJ : SimpleDB :=
  { el_db := [("i", []), ("j", [("a", Val.vint 1)])], prop_db := [],
    fname := none }

/-! ## Claims -/

/--
C2: the claim says `add` raises exactly when a *non-excluded* property is
unhashable and that a rejected `add` leaves the store unchanged.  The code
refutes both: `add({"secret": [1,2,3]}, exclude=["secret"])` raises
`TypeError` even though the only unhashable value is excluded (because
`set_prop` — and the last-item validation check — ignore the exclusion
list), and `add({"a": [1], "b": 2})` raises `TypeError` *after* the document
is already stored (the validation loop keeps only the last item's
hashability), so `size()` grows from 0 to 1 on a rejected `add`.
-/
theorem c2_add_validation_code_bug :
    dbEmpty.add [("secret", Val.vlist 0)] ["secret"] "i"
      = (.error .typeError, dbEmpty) ∧
    (dbEmpty.add [("a", Val.vlist 0), ("b", Val.vint 2)] [] "j").1
      = .error .typeError ∧
    (dbEmpty.add [("a", Val.vlist 0), ("b", Val.vint 2)] [] "j").2.size = 1 ∧
    alookup (dbEmpty.add [("a", Val.vlist 0), ("b", Val.vint 2)] [] "j").2.el_db
        "j" = some [("a", Val.vlist 0), ("b", Val.vint 2)] :=
  ⟨rfl, rfl, rfl, rfl⟩

/--
C4: the claim says `query_prop` of an indexed property returns the union of
its identifier sets.  The code instead raises `TypeError` whenever the
property is present in the index (`matches.update(self.prop_db[prop].values())`
feeds unhashable `set` elements to `set.update`); only the absent-property
branch returns the (empty) set.
-/
theorem c4_query_prop_code_bug :
    dbOne.query_prop "a" = .error .typeError ∧
    dbEmpty.query_prop "zzz" = .ok [] :=
  ⟨rfl, rfl⟩

/--
C5: the claim says `access` never raises and silently skips missing
identifiers.  The code computes `self.el_db.get(id_).copy()`, so a missing
identifier makes `get` return `None` and `None.copy()` raises
`AttributeError`; an all-present request still succeeds.
-/
theorem c5_access_code_bug :
    dbEmpty.access ["x"] = .error .attributeError ∧
    dbOne.access ["i", "x"] = .error .attributeError ∧
    dbOne.access ["i"] = .ok [[("a", Val.vint 1)]] :=
  ⟨rfl, rfl, rfl⟩

/--
C6: the claim says `remove` on a present identifier succeeds and decrements
`size()`.  The code calls the nonexistent method `self.del_prop` for every
property of the document, so removing any document with at least one
property raises `AttributeError` and leaves the store unchanged (the absent
identifier branch does raise `LookupError` with state untouched, as
claimed).
-/
theorem c6_remove_code_bug :
    dbOne.remove "i" = (.error .attributeError, dbOne) ∧
    dbOne.size = 1 ∧
    dbOne.access ["i"] = .ok [[("a", Val.vint 1)]] ∧
    dbEmpty.remove "x" = (.error .lookupError, dbEmpty) :=
  ⟨rfl, rfl, rfl, rfl⟩

/--
C7: the claim says `remove_prop` on a present id and property succeeds,
deletes the property and retracts the index entry.  The code deletes the
property from the document and then calls `query_prop(prop)`, which raises
`TypeError` because the property is still indexed; the raise leaves the
document without the property while its index entry survives unpruned (and
even were `query_prop` repaired, the next line re-reads the just-deleted
property, a `KeyError`).
-/
theorem c7_remove_prop_code_bug :
    (dbOne.remove_prop "i" "a").1 = .error .typeError ∧
    alookup (dbOne.remove_prop "i" "a").2.el_db "i" = some [] ∧
    alookup (dbOne.remove_prop "i" "a").2.prop_db "a"
      = some [(Val.vint 1, ["i"])] :=
  ⟨rfl, rfl, rfl⟩

/--
C1 (counterexample): the bidirectional invariant fails after legal operation
sequences.  (a) After the successful calls `add({"a": 1})` (id `"i"`) and
`set_prop("i", "a", 2)`, the index still holds the stale triple
`("a", 1, "i")` while the document says `a = 2` — `set_prop` does not
retract the old entry.  (b) A rejected `add({"a": [1], "b": 2})` leaves the
document stored but unindexed, breaking the converse direction.
-/
theorem c1_invariant_counterexample :
    ((dbEmpty.add [("a", Val.vint 1)] [] "i").1 = .ok "i" ∧
      (dbOne.set_prop "i" "a" (Val.vint 2) false).1 = .ok () ∧
      ¬ InvFwd (dbOne.set_prop "i" "a" (Val.vint 2) false).2) ∧
    ((dbEmpty.add [("a", Val.vlist 0), ("b", Val.vint 2)] [] "j").1
        = .error .typeError ∧
      ¬ InvConv (dbEmpty.add [("a", Val.vlist 0), ("b", Val.vint 2)] [] "j").2
        []) := by
  refine ⟨⟨rfl, rfl, ?_⟩, rfl, ?_⟩
  · intro h
    obtain ⟨d, hd, hdp⟩ := h "a" (Val.vint 1) "i"
      ⟨[(Val.vint 1, ["i"]), (Val.vint 2, ["i"])], ["i"], rfl, rfl, by decide⟩
    have hd2 : alookup (dbOne.set_prop "i" "a" (Val.vint 2) false).2.el_db "i"
        = some [("a", Val.vint 2)] := rfl
    rw [hd2] at hd
    obtain rfl := Option.some.inj hd
    exact absurd hdp (by decide)
  · intro h
    obtain ⟨vm, s, hvm, -, -⟩ :=
      h "j" [("a", Val.vlist 0), ("b", Val.vint 2)] rfl "b" (Val.vint 2) rfl
        (by simp)
    have hnone :
        alookup (dbEmpty.add [("a", Val.vlist 0), ("b", Val.vint 2)] [] "j").2.prop_db
          "b" = none := rfl
    rw [hnone] at hvm
    cases hvm

/--
C1 (amended): after any sequence of *successful*
`add`/`set_prop`/`remove`/`remove_prop` calls starting from the empty store —
with `add` supplying fresh identifiers and duplicate-free documents, and no
`set_prop` changing an already-present property of a document to a different
value — the bidirectional store/index consistency invariant holds: every
`(prop, value, id)` triple of the Property Index points to a stored document
carrying exactly that property/value pair; every property/value pair of
every stored document that is not currently excluded (ghost exclusion set
`X`) appears in the index; and no empty value-set or empty property map
persists.
-/
theorem c1_invariant_amended (db : SimpleDB) (X : Xset) (h : Reach db X) :
    (∀ p v i, inIdx db p v i →
      ∃ d, alookup db.el_db i = some d ∧ alookup d p = some v) ∧
    (∀ j d, alookup db.el_db j = some d → ∀ p v, alookup d p = some v →
      (j, p) ∉ X → inIdx db p v j) ∧
    (∀ p vm, alookup db.prop_db p = some vm →
      vm ≠ [] ∧ ∀ v s, alookup vm v = some s → s ≠ []) := by
  obtain ⟨h1, h2, h3, -⟩ := reach_storeInv h
  exact ⟨h1, h2, h3⟩

/-- C1 (witness): the amended invariant applied to the concrete reachable
store `add({"a": 1})` with id `"i"`. -/
theorem c1_invariant_amended_witness :
    ∃ d, alookup dbOne.el_db "i" = some d ∧ alookup d "a" = some (Val.vint 1) :=
  (c1_invariant_amended dbOne (xadd [] "i" [("a", Val.vint 1)] [])
      (Reach.step_add dbEmpty [] [("a", Val.vint 1)] [] "i" dbOne Reach.base
        rfl (by decide) rfl)).1
    "a" (Val.vint 1) "i" ⟨[(Val.vint 1, ["i"])], ["i"], rfl, rfl, by decide⟩

/--
C3: on a store built only via `add` (fresh identifiers, duplicate-free
documents), `query(prop, eq, v)` returns exactly the identifiers of stored
documents whose non-excluded property `prop` equals `v` (the ghost exclusion
set `X` records which assignments were excluded); and for a property absent
from the index, `query` returns the empty set for every test function and
target value.
-/
theorem c3_query_eq (db : SimpleDB) (X : Xset) (h : ReachAdd db X) :
    (∀ p v i, i ∈ db.query p db_queries.eq v ↔
      ∃ d, alookup db.el_db i = some d ∧ alookup d p = some v ∧
        (i, p) ∉ X) ∧
    (∀ p, alookup db.prop_db p = none → ∀ t v, db.query p t v = []) := by
  obtain ⟨hfw, hcv, hne, hwf⟩ := reach_storeInv (reachAdd_reach h)
  have hmk := reachAdd_invMark h
  constructor
  · intro p v i
    rw [mem_query_eq_inIdx db hwf p v i]
    constructor
    · intro hidx
      obtain ⟨d, hd, hdp⟩ := hfw p v i hidx
      exact ⟨d, hd, hdp, hmk p v i hidx⟩
    · rintro ⟨d, hd, hdp, hmark⟩
      exact hcv i d hd p v hdp hmark
  · intro p hnone t v
    exact query_absent db p hnone t v

/-- C3 (witness): the characterization instantiated on the concrete
reachable store `add({"a": 1})` with id `"i"`. -/
theorem c3_query_eq_witness :
    ("i" ∈ dbOne.query "a" db_queries.eq (Val.vint 1) ↔
      ∃ d, alookup dbOne.el_db "i" = some d ∧ alookup d "a" = some (Val.vint 1) ∧
        ("i", "a") ∉ xadd [] "i" [("a", Val.vint 1)] []) :=
  (c3_query_eq dbOne (xadd [] "i" [("a", Val.vint 1)] [])
      (ReachAdd.step dbEmpty [] [("a", Val.vint 1)] [] "i" dbOne ReachAdd.base
        rfl (by decide) rfl)).1
    "a" (Val.vint 1) "i"

/--
C8: `set_prop(id, prop, val)` on a document whose property `prop` is indexed
at a different old value `v0` succeeds, overwrites the property on the
document and inserts `id` into `PropertyIndex[prop][val]`, but does NOT
retract the old entry: `id` stays in `PropertyIndex[prop][v0]`; every other
document and every other index entry is unchanged.
-/
theorem c8_set_prop_no_retraction (db : SimpleDB) (id prop : String)
    (d : Doc) (v0 val : Val)
    (hd : alookup db.el_db id = some d)
    (hv0 : alookup d prop = some v0)
    (hvne : v0 ≠ val)
    (hidx : inIdx db prop v0 id)
    (hh : val.hashable = true) :
    (db.set_prop id prop val false).1 = .ok () ∧
    alookup (db.set_prop id prop val false).2.el_db id
      = some (aset d prop val) ∧
    alookup (aset d prop val) prop = some val ∧
    inIdx (db.set_prop id prop val false).2 prop val id ∧
    inIdx (db.set_prop id prop val false).2 prop v0 id ∧
    (∀ j, j ≠ id → alookup (db.set_prop id prop val false).2.el_db j
      = alookup db.el_db j) ∧
    (∀ p v, ¬(p = prop ∧ v = val) →
      idxIds (db.set_prop id prop val false).2 p v = idxIds db p v) := by
  have hfix := set_prop_incl_eq db id prop val d hd hh
  have hiff := inIdx_set_prop_incl db id prop val d hd hh
  have hel' := set_prop_el_db_lookup db id prop val false d hd hh
  refine ⟨congrArg Prod.fst hfix, ?_, ?_, ?_, ?_, ?_, ?_⟩
  · rw [hel' id, if_pos rfl]
  · rw [alookup_aset, if_pos rfl]
  · exact (hiff prop val id).mpr (Or.inr ⟨rfl, rfl, rfl⟩)
  · exact (hiff prop v0 id).mpr (Or.inl hidx)
  · intro j hj
    rw [hel' j, if_neg hj]
  · intro p v hpv
    unfold idxIds
    rw [set_prop_incl_prop_db db id prop val d hd hh, alookup_aset]
    by_cases hp : p = prop
    · rw [if_pos hp, hp]
      have hvv : v ≠ val := fun hv => hpv ⟨hp, hv⟩
      cases hq : alookup db.prop_db prop with
      | none => simp [hq, alookup_aset, if_neg hvv, alookup]
      | some vm => simp [hq, alookup_aset, if_neg hvv]
    · rw [if_neg hp]

/-- C8 (witness): after `add({"a": 1})` (id `"i"`) and
`set_prop("i", "a", 2)`, the identifier is still indexed at the old value. -/
theorem c8_set_prop_no_retraction_witness :
    inIdx (dbOne.set_prop "i" "a" (Val.vint 2) false).2 "a" (Val.vint 1) "i" :=
  (c8_set_prop_no_retraction dbOne "i" "a" [("a", Val.vint 1)] (Val.vint 1)
      (Val.vint 2) rfl rfl (by decide)
      ⟨[(Val.vint 1, ["i"])], ["i"], rfl, rfl, by decide⟩ rfl).2.2.2.2.1

/--
C9 (counterexample): `load` is not atomic.  Feeding a blob that contains
`"el_db"` but not `"prop_db"` makes `load` raise `KeyError` after
`self.el_db` has already been replaced, while `self.prop_db` keeps its old
value — one structure is replaced without the other.
-/
theorem c9_load_counterexample :
    (dbOne.load "f" (.ok ⟨some [], none⟩)).1 = .error .keyError ∧
    (dbOne.load "f" (.ok ⟨some [], none⟩)).2.el_db = [] ∧
    dbOne.el_db ≠ [] ∧
    (dbOne.load "f" (.ok ⟨some [], none⟩)).2.prop_db = dbOne.prop_db := by
  exact ⟨rfl, rfl, by decide, rfl⟩

/--
C9 (amended): `load` leaves the store unchanged on a stream/unpickling error
and on a blob missing the `"el_db"` field; but on a blob carrying `"el_db"`
while missing `"prop_db"`, it raises `KeyError` *after* replacing the
Document Table, keeping the old Property Index; only when both fields are
present are both structures (and the remembered file name) replaced.
-/
theorem c9_load_amended (db : SimpleDB) (f : String)
    (input : Except PyErr Blob) :
    (∀ e, input = .error e → db.load f input = (.error e, db)) ∧
    (∀ b, input = .ok b → b.elField = none →
      db.load f input = (.error .keyError, db)) ∧
    (∀ b e, input = .ok b → b.elField = some e → b.propField = none →
      db.load f input = (.error .keyError, { db with el_db := e })) ∧
    (∀ b e p, input = .ok b → b.elField = some e → b.propField = some p →
      db.load f input
        = (.ok (), { db with el_db := e, prop_db := p, fname := some f })) := by
  refine ⟨?_, ?_, ?_, ?_⟩
  · rintro e rfl
    rfl
  · rintro b rfl hb
    simp [SimpleDB.load, hb]
  · rintro b e rfl hb hp
    simp [SimpleDB.load, hb, hp]
  · rintro b e p rfl hb hp
    simp [SimpleDB.load, hb, hp]

/-- C9 (witness): the non-atomic branch evaluated at a concrete store and
blob. -/
theorem c9_load_amended_witness :
    dbOne.load "f" (.ok ⟨some [], none⟩)
      = (.error .keyError, { dbOne with el_db := [] }) :=
  (c9_load_amended dbOne "f" (.ok ⟨some [], none⟩)).2.2.1
    ⟨some [], none⟩ [] rfl rfl rfl

/--
C10 (counterexample): an existing empty document is *not* indistinguishable
from a missing identifier through `access`: the empty document is silently
omitted from a successful result, while a missing identifier makes `access`
raise `AttributeError`.
-/
theorem c10_access_counterexample :
    dbIJ.access ["i"] = .ok [] ∧
    dbIJ.access ["k"] = .error .attributeError :=
  ⟨rfl, rfl⟩

/--
C10 (amended): when every requested identifier is present, `access` returns
the looked-up documents filtered by truthiness — a present identifier whose
document is the empty mapping is silently omitted; by contrast, a request
containing a missing identifier raises `AttributeError`.
-/
theorem c10_access_truthiness (db : SimpleDB) (ids : List String) :
    ((∀ j, j ∈ ids → (alookup db.el_db j).isSome) →
      db.access ids = .ok ((ids.filterMap (fun j => alookup db.el_db j)).filter
        (fun d => !d.isEmpty))) ∧
    ((∃ j, j ∈ ids ∧ alookup db.el_db j = none) →
      db.access ids = .error .attributeError) := by
  constructor
  · intro hall
    induction ids with
    | nil => rfl
    | cons i rest ih =>
      have hi := hall i (List.mem_cons_self _ _)
      cases hlk : alookup db.el_db i with
      | none =>
        rw [hlk] at hi
        simp at hi
      | some el =>
        have hrest := ih (fun j hj => hall j (List.mem_cons_of_mem _ hj))
        have hstep : SimpleDB.access db (i :: rest) =
            .ok (if el.isEmpty then
                ((rest.filterMap (fun j => alookup db.el_db j)).filter
                  (fun d => !d.isEmpty))
              else el :: ((rest.filterMap (fun j => alookup db.el_db j)).filter
                  (fun d => !d.isEmpty))) := by
          simp [SimpleDB.access, hlk, hrest]
        rw [hstep]
        by_cases he : el.isEmpty
        · simp [List.filterMap_cons, hlk, List.filter_cons, he]
        · simp [List.filterMap_cons, hlk, List.filter_cons, he]
  · intro hex
    induction ids with
    | nil =>
      obtain ⟨j, hj, -⟩ := hex
      cases hj
    | cons i rest ih =>
      obtain ⟨j, hj, hnone⟩ := hex
      rcases List.mem_cons.mp hj with rfl | hj'
      · simp [SimpleDB.access, hnone]
      · cases hlk : alookup db.el_db i with
        | none => simp [SimpleDB.access, hlk]
        | some el =>
          have hrec := ih ⟨j, hj', hnone⟩
          simp [SimpleDB.access, hlk, hrec]

/-- C10 (witness): an all-present request against a store containing an
empty document under `"i"`: the empty document is omitted. -/
theorem c10_access_truthiness_witness :
    dbIJ.access ["i", "j"] = .ok [[("a", Val.vint 1)]] :=
  ((c10_access_truthiness dbIJ ["i", "j"]).1 (by decide)).trans rfl
